import Mathlib

/-!
Shallow embedding of the symmetry-enforcement engine of CellConstructor
(cellconstructor/symmetries.py, class QE_Symmetry and the module-level
helpers), over exact rationals.

Modelling conventions, used throughout:
* `float64` scalars are modelled by `ℚ`; `complex128` scalars by pairs
  `ℚ × ℚ` (real and imaginary part).  The claims verified here concern
  index bookkeeping, error paths and exact linear-algebra identities,
  none of which depend on floating-point rounding.
* The external Fortran kernels (`symph.star_q`, `symph.q2qstar_out`,
  `symph.symmatrix`, `symph.symdynph_gq_new`, `symph.set_asr`) and the
  helpers of the `Methods` module (`get_min_dist_into_cell`,
  `cryst_to_cart` style converters), which are outside the source under
  analysis, are taken as function parameters of the embedded
  operations, exactly as the spec treats them (GroupDiscoveryAdapter /
  GeometricModel contracts).
* In-place mutation of a caller's array is modelled by returning the
  new value; raising `ValueError` (or any other Python exception) is
  modelled by `Option.none` or by `Except.error`.
-/

/-- A 3-vector of rationals (a q-point in reciprocal Cartesian
coordinates, a fractional translation, an atomic position ...). -/
abbrev Vec3 := Fin 3 → ℚ

/-- A real 3×3 matrix (rotation part of a symmetry operation, stress
tensor, effective-charge block ...). -/
abbrev M3 := Matrix (Fin 3) (Fin 3) ℚ

/-- A complex scalar, modelled as a pair (real part, imaginary part).
Only addition and scaling by rationals are performed on these values by
the embedded operations, both of which act componentwise. -/
abbrev CC := ℚ × ℚ

/-- A square complex matrix of size `m` (a dynamical-matrix block with
`m = 3 * N_atoms`). -/
abbrev CMat (m : ℕ) := Matrix (Fin m) (Fin m) CC

/-- The module-level tolerance `__EPSILON__ = 1e-5` of symmetries.py,
written as a raw rational (numerator 1, denominator 100000) so that
the kernel can evaluate comparisons against it; `epsQ_eq` identifies
it with `1 / 100000`. -/
def epsQ : ℚ := Rat.mk' 1 100000

lemma epsQ_eq : epsQ = 1 / 100000 := by
  have h := Rat.divInt_self epsQ
  rw [show epsQ.num = 1 from rfl, show (epsQ.den : ℤ) = 100000 from rfl] at h
  rw [← h, Rat.divInt_eq_div]
  norm_num

/-- The error taxonomy of the spec, for the failure exits that the
source actually implements (every one of them is a `ValueError` in the
Python source, distinguished only by its message). -/
inductive QErr where
  | notInitialized
  | starSizeMismatch
  | ambiguousStarMatch
  deriving DecidableEq, Repr

/-! ## CustomASR (module-level function, symmetries.py lines 884-919)

The source builds for each Cartesian direction `i < 3` the uniform
displacement vector `v1` with `v1[3*a + i] = 1`, normalises it by
`sqrt(v1.dot(v1)) = sqrt(nat)` and subtracts the outer product of the
normalised vector from the identity.  Over `ℚ` the square root of
`nat` is not representable, but only the outer product of the
normalised vector is ever used, and
`outer(v1/sqrt(nat), v1/sqrt(nat)) = outer(v1, v1) / nat`, which is
rational; `transP` folds the two normalisation factors in this way. -/

/-- The unnormalised uniform-translation direction `d` of the source
(`v1[3*np.arange(nat) + i] = 1`): entry `j` is 1 exactly when
`j % 3 = d`. -/
def vdir (d j : ℕ) : ℚ := if j % 3 = d then 1 else 0

/-- The projector `trans = eye(3*nat) - sum_d outer(v1_d, v1_d)` of
CustomASR, with each outer product of the sqrt-normalised vector
written as the outer product of the unnormalised vector divided by
`nat` (see the section comment). -/
def transP (nat : ℕ) (i j : ℕ) : ℚ :=
  (if i = j then 1 else 0) - ∑ d ∈ Finset.range 3, vdir d i * vdir d j / (nat : ℚ)

/-- Row-times-column product of two `n × n` matrices stored as plain
index functions (`numpy.dot` on square arrays). -/
def mmulQ (n : ℕ) (A B : ℕ → ℕ → ℚ) : ℕ → ℕ → ℚ :=
  fun i j => ∑ k ∈ Finset.range n, A i k * B k j

/-- CustomASR (symmetries.py lines 884-919).  Shape handling of the
source: raise if the matrix is not square; raise if the side is not
divisible by 3 (`nat = shape[0] / 3` is Python-2 integer division and
`nat*3 != shape[0]` is the check); then `dtype = type(fc_matrix[0,0])`
raises `IndexError` when the matrix is empty; finally the matrix is
overwritten with `trans.dot(fc_matrix.dot(trans))`.  Every raise is
modelled by `none`. -/
def CustomASR (rows cols : ℕ) (F : ℕ → ℕ → ℚ) : Option (ℕ → ℕ → ℚ) :=
  if rows ≠ cols then none
  else
    let nat := rows / 3
    if nat * 3 ≠ rows then none
    else if rows = 0 then none
    else some (mmulQ rows (transP nat) (mmulQ rows F (transP nat)))

lemma vdir_mul_self (d e j : ℕ) :
    vdir d j * vdir e j = if d = e then vdir d j else 0 := by
  unfold vdir
  by_cases hde : d = e
  · subst hde
    by_cases hd : j % 3 = d <;> simp [hd]
  · rw [if_neg hde]
    by_cases hd : j % 3 = d
    · have he : j % 3 ≠ e := by omega
      simp [hd, he, hde]
    · simp [hd]

/-- Exchange a sum of products with an inner sum:
`sum_j (sum_k A k * B k j) * v j = sum_k A k * (sum_j B k j * v j)`. -/
lemma sum_swap_mul (N n : ℕ) (A : ℕ → ℚ) (B : ℕ → ℕ → ℚ) (v : ℕ → ℚ) :
    ∑ j ∈ Finset.range N, (∑ k ∈ Finset.range n, A k * B k j) * v j
      = ∑ k ∈ Finset.range n, A k * ∑ j ∈ Finset.range N, B k j * v j := by
  calc ∑ j ∈ Finset.range N, (∑ k ∈ Finset.range n, A k * B k j) * v j
      = ∑ j ∈ Finset.range N, ∑ k ∈ Finset.range n, A k * (B k j * v j) := by
        refine Finset.sum_congr rfl fun j _ => ?_
        rw [Finset.sum_mul]
        exact Finset.sum_congr rfl fun k _ => by ring
    _ = ∑ k ∈ Finset.range n, ∑ j ∈ Finset.range N, A k * (B k j * v j) :=
        Finset.sum_comm
    _ = ∑ k ∈ Finset.range n, A k * ∑ j ∈ Finset.range N, B k j * v j := by
        refine Finset.sum_congr rfl fun k _ => ?_
        rw [Finset.mul_sum]

lemma sum_vdir (d : ℕ) (hd : d < 3) (n : ℕ) :
    ∑ j ∈ Finset.range (3 * n), vdir d j = (n : ℚ) := by
  induction n with
  | zero => simp
  | succ m ih =>
    have h3 : 3 * (m + 1) = (3 * m + 1 + 1) + 1 := by ring
    rw [h3, Finset.sum_range_succ, Finset.sum_range_succ, Finset.sum_range_succ, ih]
    have e0 : (3 * m) % 3 = 0 := by omega
    have e1 : (3 * m + 1) % 3 = 1 := by omega
    have e2 : (3 * m + 1 + 1) % 3 = 2 := by omega
    unfold vdir
    rw [e0, e1, e2]
    interval_cases d <;> norm_num

lemma sum_vdir_mul_vdir (d e : ℕ) (hd : d < 3) (n : ℕ) :
    ∑ j ∈ Finset.range (3 * n), vdir d j * vdir e j
      = if d = e then (n : ℚ) else 0 := by
  by_cases h : d = e
  · subst h
    rw [if_pos rfl]
    calc ∑ j ∈ Finset.range (3 * n), vdir d j * vdir d j
        = ∑ j ∈ Finset.range (3 * n), vdir d j := by
          refine Finset.sum_congr rfl fun j _ => ?_
          rw [vdir_mul_self, if_pos rfl]
      _ = (n : ℚ) := sum_vdir d hd n
  · rw [if_neg h]
    refine Finset.sum_eq_zero fun j _ => ?_
    rw [vdir_mul_self, if_neg h]

/-- Applying the projector row `a`, for `a` inside the index range, to
the translation direction `d` gives zero: `sum_j P a j * v_d j = 0`. -/
lemma transP_mulVec_vdir (n : ℕ) (hn : 0 < n) (d : ℕ) (hd : d < 3)
    (a : ℕ) (ha : a < 3 * n) :
    ∑ j ∈ Finset.range (3 * n), transP n a j * vdir d j = 0 := by
  unfold transP
  have hsplit :
      ∑ j ∈ Finset.range (3 * n),
        ((if a = j then (1 : ℚ) else 0) -
          ∑ e ∈ Finset.range 3, vdir e a * vdir e j / (n : ℚ)) * vdir d j
      = (∑ j ∈ Finset.range (3 * n), (if a = j then (1 : ℚ) else 0) * vdir d j) -
        ∑ j ∈ Finset.range (3 * n),
          (∑ e ∈ Finset.range 3, vdir e a * vdir e j / (n : ℚ)) * vdir d j := by
    rw [← Finset.sum_sub_distrib]
    refine Finset.sum_congr rfl fun j _ => ?_
    ring
  rw [hsplit]
  have hfirst :
      ∑ j ∈ Finset.range (3 * n), (if a = j then (1 : ℚ) else 0) * vdir d j
        = vdir d a := by
    rw [Finset.sum_eq_single a]
    · simp
    · intro b _ hb
      rw [if_neg fun h => hb h.symm, zero_mul]
    · intro hmem
      exact absurd (Finset.mem_range.mpr ha) hmem
  have hn' : (n : ℚ) ≠ 0 := Nat.cast_ne_zero.mpr (by omega)
  have hsecond :
      ∑ j ∈ Finset.range (3 * n),
        (∑ e ∈ Finset.range 3, vdir e a * vdir e j / (n : ℚ)) * vdir d j
        = vdir d a := by
    calc ∑ j ∈ Finset.range (3 * n),
          (∑ e ∈ Finset.range 3, vdir e a * vdir e j / (n : ℚ)) * vdir d j
        = ∑ j ∈ Finset.range (3 * n),
            (∑ e ∈ Finset.range 3, vdir e a / (n : ℚ) * vdir e j) * vdir d j := by
          refine Finset.sum_congr rfl fun j _ => ?_
          refine congrArg (· * vdir d j) ?_
          exact Finset.sum_congr rfl fun e _ => by ring
      _ = ∑ e ∈ Finset.range 3,
            vdir e a / (n : ℚ) * ∑ j ∈ Finset.range (3 * n), vdir e j * vdir d j :=
          sum_swap_mul (3 * n) 3 (fun e => vdir e a / (n : ℚ))
            (fun e j => vdir e j) (vdir d)
      _ = ∑ e ∈ Finset.range 3,
            vdir e a / (n : ℚ) * (if e = d then (n : ℚ) else 0) := by
          refine Finset.sum_congr rfl fun e he => ?_
          rw [sum_vdir_mul_vdir e d (Finset.mem_range.mp he) n]
      _ = vdir d a / (n : ℚ) * (n : ℚ) := by
          rw [Finset.sum_eq_single d]
          · rw [if_pos rfl]
          · intro e _ hed
            rw [if_neg hed, mul_zero]
          · intro hmem
            exact absurd (Finset.mem_range.mpr hd) hmem
      _ = vdir d a := div_mul_cancel₀ _ hn'
  rw [hfirst, hsecond, sub_self]

/-- The full projection `P (F P)` annihilates every translation
direction, at every row index. -/
lemma customCore_mulVec_vdir (n : ℕ) (hn : 0 < n) (F : ℕ → ℕ → ℚ)
    (d : ℕ) (hd : d < 3) (i : ℕ) :
    ∑ j ∈ Finset.range (3 * n),
      mmulQ (3 * n) (transP n) (mmulQ (3 * n) F (transP n)) i j * vdir d j = 0 := by
  unfold mmulQ
  rw [sum_swap_mul (3 * n) (3 * n) (fun k => transP n i k)
    (fun k j => ∑ m ∈ Finset.range (3 * n), F k m * transP n m j) (vdir d)]
  refine Finset.sum_eq_zero fun k _ => ?_
  rw [sum_swap_mul (3 * n) (3 * n) (fun m => F k m)
    (fun m j => transP n m j) (vdir d)]
  have hin : ∑ m ∈ Finset.range (3 * n), F k m *
      ∑ j ∈ Finset.range (3 * n), transP n m j * vdir d j = 0 := by
    refine Finset.sum_eq_zero fun m hm => ?_
    rw [transP_mulVec_vdir n hn d hd m (Finset.mem_range.mp hm), mul_zero]
  rw [hin, mul_zero]

/-- On a well-shaped nonempty matrix, CustomASR returns the double
projection `P (F P)`. -/
lemma customASR_eq_some (nat : ℕ) (hn : 0 < nat) (F : ℕ → ℕ → ℚ) :
    CustomASR (3 * nat) (3 * nat) F
      = some (mmulQ (3 * nat) (transP nat) (mmulQ (3 * nat) F (transP nat))) := by
  have hdiv : 3 * nat / 3 = nat := by omega
  unfold CustomASR
  rw [if_neg (by omega : ¬(3 * nat ≠ 3 * nat))]
  simp only [hdiv]
  rw [if_neg (by omega : ¬(nat * 3 ≠ 3 * nat))]
  rw [if_neg (by omega : ¬(3 * nat = 0))]

/-- C6: after CustomASR the matrix is exactly `P * F * P` with
`P = I - sum_d outer(v_d, v_d) / nat` (the orthogonal-complement
projector of the three normalised uniform-translation directions), and
multiplying the result by the unnormalised uniform-translation vector
`v_d` tiled across all atoms, in any Cartesian direction `d`, yields
the zero vector. -/
theorem C6_customASR_projects_translations (nat : ℕ) (hn : 0 < nat)
    (F : ℕ → ℕ → ℚ) :
    CustomASR (3 * nat) (3 * nat) F
      = some (mmulQ (3 * nat) (transP nat) (mmulQ (3 * nat) F (transP nat))) ∧
    ∀ d < 3, ∀ G, CustomASR (3 * nat) (3 * nat) F = some G →
      ∀ i, ∑ j ∈ Finset.range (3 * nat), G i j * vdir d j = 0 := by
  refine ⟨customASR_eq_some nat hn F, fun d hd G hG i => ?_⟩
  rw [customASR_eq_some nat hn F] at hG
  rw [← Option.some_inj.mp hG]
  exact customCore_mulVec_vdir nat hn F d hd i

/-- Witness for C6 at a concrete input: one atom (a 3×3 force-constant
matrix), direction x. -/
theorem C6_customASR_projects_translations_witness :
    (0 : ℕ) < 1 ∧
    ∀ G, CustomASR (3 * 1) (3 * 1) (fun i j => (i : ℚ) + j) = some G →
      ∀ i, ∑ j ∈ Finset.range (3 * 1), G i j * vdir 0 j = 0 :=
  ⟨by decide,
    (C6_customASR_projects_translations 1 (by decide)
      (fun i j => (i : ℚ) + j)).2 0 (by decide)⟩

/-- C10 (corrected): CustomASR rejects a non-square matrix, rejects a
square matrix whose side is not divisible by 3, and succeeds on every
well-shaped *nonempty* matrix; but the empty 0×0 matrix, although
square with side divisible by 3, also raises (the
`dtype = type(fc_matrix[0,0])` access), so the original claim's
"otherwise it never errors" is false. -/
theorem C10_customASR_shape_checks (rows cols : ℕ) (F : ℕ → ℕ → ℚ) :
    (rows ≠ cols → CustomASR rows cols F = none) ∧
    (rows % 3 ≠ 0 → CustomASR rows rows F = none) ∧
    (rows = cols → rows % 3 = 0 → rows ≠ 0 → (CustomASR rows cols F).isSome) := by
  refine ⟨fun hne => ?_, fun hmod => ?_, fun hsq hmod hnz => ?_⟩
  · unfold CustomASR
    rw [if_pos hne]
  · unfold CustomASR
    rw [if_neg (by omega : ¬(rows ≠ rows))]
    simp only
    rw [if_pos (by omega : rows / 3 * 3 ≠ rows)]
  · subst hsq
    unfold CustomASR
    rw [if_neg (by omega : ¬(rows ≠ rows))]
    simp only
    rw [if_neg (by omega : ¬(rows / 3 * 3 ≠ rows))]
    rw [if_neg hnz]
    rfl

/-- Witness for C10 at concrete shapes: a 2×3 matrix is rejected, a 4×4
matrix is rejected, a 3×3 matrix is accepted. -/
theorem C10_customASR_shape_checks_witness :
    CustomASR 2 3 (fun _ _ => (1 : ℚ)) = none ∧
    CustomASR 4 4 (fun _ _ => (1 : ℚ)) = none ∧
    (CustomASR 3 3 (fun _ _ => (1 : ℚ))).isSome :=
  ⟨(C10_customASR_shape_checks 2 3 _).1 (by decide),
   (C10_customASR_shape_checks 4 4 _).2.1 (by decide),
   (C10_customASR_shape_checks 3 3 _).2.2 rfl (by decide) (by decide)⟩

/-- C10 counterexample: the empty 0×0 matrix is square and its side is
divisible by 3, yet CustomASR raises on it (the dtype access
`fc_matrix[0,0]` is an IndexError on an empty array), refuting
"otherwise it never errors". -/
theorem C10_customASR_empty_counterexample :
    (0 : ℕ) = 0 ∧ (0 : ℕ) % 3 = 0 ∧
    CustomASR 0 0 (fun _ _ => (0 : ℚ)) = none := by
  refine ⟨rfl, rfl, ?_⟩
  unfold CustomASR
  simp

/-! ## SetupQStar (QE_Symmetry.SetupQStar, symmetries.py lines 135-208)

The method pops q-points from a working copy of the input list, one
star at a time.  The star of the current head is obtained from the
external kernel `symph.star_q` (modelled by the parameter `star`), and
each star member is matched against the remaining list and against the
full input list by `np.argmin` over the tolerance distances computed
by `Methods.get_min_dist_into_cell` (modelled by the parameter
`dist`).  There is no tolerance comparison and no error exit in this
matching: `np.argmin` only raises when the list it is given is empty,
which is modelled by `none`.  The Python `while` loop is modelled with
a fuel argument equal to the input length (one unit per iteration);
running out of fuel, which corresponds to the loop not terminating
(possible only when `star` returns an empty star), is also `none`. -/

/-- Running state of `np.argmin`: best index, best value, next index,
remaining values.  The strict comparison keeps the first occurrence of
the minimum, as numpy does. -/
def argminGo (bi : ℕ) (bv : ℚ) (i : ℕ) : List ℚ → ℕ
  | [] => bi
  | x :: rest =>
    if x < bv then argminGo i x (i + 1) rest else argminGo bi bv (i + 1) rest

/-- Model of `np.argmin` on a list of distances: index of the first
minimum; `none` on an empty list (numpy raises ValueError there). -/
def argminQ : List ℚ → Option ℕ
  | [] => none
  | x :: rest => some (argminGo 0 x 1 rest)

lemma argminGo_lt (l : List ℚ) : ∀ bi bv i, bi < i →
    argminGo bi bv i l < i + l.length := by
  induction l with
  | nil =>
    intro bi bv i h
    simp only [argminGo, List.length_nil]
    omega
  | cons x rest ih =>
    intro bi bv i h
    unfold argminGo
    simp only [List.length_cons]
    by_cases hx : x < bv
    · rw [if_pos hx]
      have := ih i x (i + 1) (Nat.lt_succ_self i)
      omega
    · rw [if_neg hx]
      have := ih bi bv (i + 1) (Nat.lt_succ_of_lt h)
      omega

lemma argminQ_lt {l : List ℚ} {k : ℕ} (h : argminQ l = some k) : k < l.length := by
  cases l with
  | nil => simp [argminQ] at h
  | cons x rest =>
    simp only [argminQ, Option.some_inj] at h
    subst h
    have := argminGo_lt rest 0 x 1 (by omega)
    simp only [List.length_cons]
    omega

/-- The inner loop of SetupQStar over the members of one computed
star: for each member, `np.argmin` of the distances to the remaining
list pops the nearest remaining q-point, and `np.argmin` of the
distances to the full input records the index of the nearest input
q-point (symmetries.py lines 189-205). -/
def popMembers (dist : Vec3 → Vec3 → ℚ) (q_tot : List Vec3) :
    List Vec3 → List Vec3 → List ℕ → Option (List Vec3 × List ℕ)
  | [], q_list, idx => some (q_list, idx)
  | m :: rest, q_list, idx =>
    match argminQ (q_list.map (fun p => dist m p)) with
    | none => none
    | some pi =>
      match argminQ (q_tot.map (fun p => dist m p)) with
      | none => none
      | some ti => popMembers dist q_tot rest (q_list.eraseIdx pi) (idx ++ [ti])

/-- The outer `while len(q_list) > 0` loop of SetupQStar, with fuel. -/
def setupQStarGo (star : Vec3 → List Vec3) (dist : Vec3 → Vec3 → ℚ)
    (q_tot : List Vec3) :
    ℕ → List Vec3 → List (List Vec3) → List ℕ →
      Option (List (List Vec3) × List ℕ)
  | _, [], stars, idx => some (stars, idx)
  | 0, _ :: _, _, _ => none
  | fuel + 1, q :: qrest, stars, idx =>
    match popMembers dist q_tot (star q) (q :: qrest) [] with
    | none => none
    | some (q_list', idx') =>
      setupQStarGo star dist q_tot fuel q_list' (stars ++ [star q]) (idx ++ idx')

/-- QE_Symmetry.SetupQStar.  The preliminary `self.SetupQPoint()` call
only populates the symmetry tables consumed by `symph.star_q`, which
is abstracted into `star`; the result is the list of stars and the
index map `q_indices`. -/
def SetupQStar (star : Vec3 → List Vec3) (dist : Vec3 → Vec3 → ℚ)
    (q_tot : List Vec3) : Option (List (List Vec3) × List ℕ) :=
  setupQStarGo star dist q_tot q_tot.length q_tot [] []

lemma popMembers_lengths (dist : Vec3 → Vec3 → ℚ) (q_tot : List Vec3)
    (ms : List Vec3) : ∀ q_list idx q_list' idx',
    popMembers dist q_tot ms q_list idx = some (q_list', idx') →
    q_list'.length + ms.length = q_list.length ∧
    idx'.length = idx.length + ms.length := by
  induction ms with
  | nil =>
    intro q_list idx q_list' idx' h
    simp only [popMembers, Option.some_inj, Prod.mk.injEq] at h
    obtain ⟨h1, h2⟩ := h
    subst h1; subst h2
    simp only [List.length_nil]
    omega
  | cons m rest ih =>
    intro q_list idx q_list' idx' h
    unfold popMembers at h
    cases hpi : argminQ (q_list.map (fun p => dist m p)) with
    | none => rw [hpi] at h; exact absurd h (by simp)
    | some pi =>
      rw [hpi] at h
      cases hti : argminQ (q_tot.map (fun p => dist m p)) with
      | none => rw [hti] at h; exact absurd h (by simp)
      | some ti =>
        rw [hti] at h
        have hplt : pi < q_list.length := by
          have := argminQ_lt hpi
          simpa using this
        have herase := List.length_eraseIdx_add_one hplt
        obtain ⟨h1, h2⟩ := ih (q_list.eraseIdx pi) (idx ++ [ti]) q_list' idx' h
        constructor
        · simp only [List.length_cons]
          omega
        · simp only [List.length_append, List.length_cons, List.length_nil] at h2 ⊢
          omega

lemma setupQStarGo_lengths (star : Vec3 → List Vec3) (dist : Vec3 → Vec3 → ℚ)
    (q_tot : List Vec3) (fuel : ℕ) : ∀ q_list stars idx S I,
    setupQStarGo star dist q_tot fuel q_list stars idx = some (S, I) →
    (S.map List.length).sum = (stars.map List.length).sum + q_list.length ∧
    I.length = idx.length + q_list.length := by
  induction fuel with
  | zero =>
    intro q_list stars idx S I h
    cases q_list with
    | nil =>
      simp only [setupQStarGo, Option.some_inj, Prod.mk.injEq] at h
      obtain ⟨h1, h2⟩ := h
      subst h1; subst h2
      simp only [List.length_nil]
      omega
    | cons q qrest => exact absurd h (by simp [setupQStarGo])
  | succ fuel ih =>
    intro q_list stars idx S I h
    cases q_list with
    | nil =>
      simp only [setupQStarGo, Option.some_inj, Prod.mk.injEq] at h
      obtain ⟨h1, h2⟩ := h
      subst h1; subst h2
      simp only [List.length_nil]
      omega
    | cons q qrest =>
      unfold setupQStarGo at h
      cases hpop : popMembers dist q_tot (star q) (q :: qrest) [] with
      | none => rw [hpop] at h; exact absurd h (by simp)
      | some res =>
        obtain ⟨q_list', idx'⟩ := res
        rw [hpop] at h
        obtain ⟨hq, hi⟩ := popMembers_lengths dist q_tot (star q) (q :: qrest) [] q_list' idx' hpop
        obtain ⟨h1, h2⟩ := ih q_list' (stars ++ [star q]) (idx ++ idx') S I h
        simp only [List.map_append, List.sum_append, List.map_cons, List.map_nil,
          List.sum_cons, List.sum_nil, List.length_append, List.length_cons,
          List.length_nil] at h1 h2 hq hi ⊢
        omega

/-- C1 (amended): whenever SetupQStar returns at all, the sizes of the
returned stars sum to the input length N, and the index map has
exactly N entries — each computed star member consumed exactly one
entry of the input list (the list is popped once per member and ends
empty).  The original claim, which asserts this for every input free
of near-duplicates, fails because the match of a star member pops
blindly: an input that does not contain the whole star of one of its
members makes a later `np.argmin` run on an empty list and raise (see
the counterexample). -/
theorem C1_setupQStar_sizes_sum (star : Vec3 → List Vec3)
    (dist : Vec3 → Vec3 → ℚ) (q_tot : List Vec3)
    (S : List (List Vec3)) (I : List ℕ)
    (h : SetupQStar star dist q_tot = some (S, I)) :
    (S.map List.length).sum = q_tot.length ∧ I.length = q_tot.length := by
  obtain ⟨h1, h2⟩ := setupQStarGo_lengths star dist q_tot q_tot.length q_tot [] [] S I h
  simp only [List.map_nil, List.sum_nil, List.length_nil] at h1 h2
  omega

/-- The zero q-point (Gamma). -/
def vzero : Vec3 := fun _ => 0

/-- The q-point (1/2, 0, 0) of a simple cubic lattice. -/
def vhx : Vec3 := fun i => if i = 0 then 1/2 else 0

/-- The q-point (0, 1/2, 0), a cubic-symmetry image of `vhx`. -/
def vhy : Vec3 := fun i => if i = 1 then 1/2 else 0

/-- A concrete instantiation of the abstract distance parameter
(`Methods.get_min_dist_into_cell`): the discrete distance, which is a
metric.  The claims about SetupQStar hold (or fail) for every distance
function; the concrete runs below use this one. -/
def distDemo (x y : Vec3) : ℚ := if x = y then 0 else 1

/-- A concrete instantiation of the `symph.star_q` adapter for a
simple cubic lattice at the q-point (1/2,0,0): the star always
contains the symmetry image (0,1/2,0) next to (1/2,0,0) itself. -/
def starCubicHalf : Vec3 → List Vec3 := fun _ => [vhx, vhy]

/-- The degenerate star adapter that maps every q-point to the
one-element star containing only itself (the Gamma-only situation). -/
def starTrivial : Vec3 → List Vec3 := fun q => [q]

/-- C1 counterexample: the input list [(1/2,0,0)] contains no two
points closer than the threshold (it is a singleton), yet SetupQStar
does not return a partition: the star of (1/2,0,0) has a second
member, whose matching pass runs `np.argmin` on the already-empty
remaining list, which raises.  Hence the original claim's hypothesis
(no near-duplicates) does not suffice for the claimed conclusion. -/
theorem C1_setupQStar_incomplete_star_counterexample :
    List.Pairwise (fun p q => epsQ ≤ distDemo p q) [vhx] ∧
    SetupQStar starCubicHalf distDemo [vhx] = none := by
  constructor
  · simp
  · decide

/-- Witness for C1 (amended) at a concrete successful run: the input
[Gamma] partitions into one star of size one with index map [0]. -/
theorem C1_setupQStar_sizes_sum_witness :
    (([[vzero]] : List (List Vec3)).map List.length).sum
        = ([vzero] : List Vec3).length ∧
    ([0] : List ℕ).length = ([vzero] : List Vec3).length :=
  C1_setupQStar_sizes_sum starTrivial distDemo [vzero] [[vzero]] [0] (by decide)

/-- C2 counterexample: an input containing the same q-point twice
(distance 0 < 1e-5) is not rejected — SetupQStar returns a normal
result, whose index map even records input index 0 twice — because
the member matching is a bare `np.argmin` with no tolerance
comparison; DuplicateQPoint and StarMemberNotFound do not exist in
the source. -/
theorem C2_setupQStar_no_duplicate_rejection_counterexample :
    distDemo vzero vzero < epsQ ∧
    SetupQStar starTrivial distDemo [vzero, vzero]
      = some ([[vzero], [vzero]], [0, 0]) := by
  constructor
  · decide
  · decide

lemma popMembers_single (dist : Vec3 → Vec3 → ℚ) (q_tot : List Vec3)
    (m : Vec3) (hq : q_tot ≠ []) (q_list : List Vec3) (hl : q_list ≠ [])
    (idx : List ℕ) :
    ∃ q_list' idx', popMembers dist q_tot [m] q_list idx = some (q_list', idx') ∧
      q_list'.length + 1 = q_list.length := by
  cases q_list with
  | nil => exact absurd rfl hl
  | cons x xs =>
    cases q_tot with
    | nil => exact absurd rfl hq
    | cons t ts =>
      have hpi : argminQ (((x :: xs).map (fun p => dist m p)))
          = some (argminGo 0 (dist m x) 1 (xs.map (fun p => dist m p))) := rfl
      have hlt : argminGo 0 (dist m x) 1 (xs.map (fun p => dist m p))
          < (x :: xs).length := by
        have := argminGo_lt (xs.map (fun p => dist m p)) 0 (dist m x) 1 (by omega)
        simp only [List.length_map] at this
        simp only [List.length_cons]
        omega
      refine ⟨(x :: xs).eraseIdx (argminGo 0 (dist m x) 1 (xs.map (fun p => dist m p))),
        idx ++ [argminGo 0 (dist m t) 1 (ts.map (fun p => dist m p))], ?_, ?_⟩
      · simp only [popMembers, argminQ, List.map_cons]
      · exact List.length_eraseIdx_add_one hlt

lemma setupQStarGo_single_some (star : Vec3 → List Vec3)
    (dist : Vec3 → Vec3 → ℚ) (q_tot : List Vec3)
    (h1 : ∀ q, (star q).length = 1) (hq : q_tot ≠ []) (fuel : ℕ) :
    ∀ q_list stars idx, q_list.length ≤ fuel →
    (setupQStarGo star dist q_tot fuel q_list stars idx).isSome := by
  induction fuel with
  | zero =>
    intro q_list stars idx hlen
    have hnil : q_list = [] := List.length_eq_zero.mp (Nat.le_zero.mp hlen)
    subst hnil
    simp [setupQStarGo]
  | succ fuel ih =>
    intro q_list stars idx hlen
    cases q_list with
    | nil => simp [setupQStarGo]
    | cons q qrest =>
      obtain ⟨m, hm⟩ := List.length_eq_one.mp (h1 q)
      obtain ⟨q_list', idx', hpop, hlen'⟩ :=
        popMembers_single dist q_tot m hq (q :: qrest) (by simp) []
      unfold setupQStarGo
      rw [hm, hpop]
      apply ih
      simp only [List.length_cons] at hlen hlen'
      omega

/-- C2 (amended): the member matching of SetupQStar pops the nearest
remaining input q-point by `np.argmin` with no tolerance comparison
and has no failure exit of its own; in particular, when every star is
a singleton, SetupQStar succeeds on *every* input list — duplicate or
near-duplicate q-points are consumed silently, never rejected. -/
theorem C2_setupQStar_argmin_never_rejects (star : Vec3 → List Vec3)
    (dist : Vec3 → Vec3 → ℚ) (q_tot : List Vec3)
    (h : ∀ q, (star q).length = 1) :
    (SetupQStar star dist q_tot).isSome := by
  cases hq : q_tot with
  | nil => simp [SetupQStar, setupQStarGo]
  | cons t ts =>
    exact setupQStarGo_single_some star dist (t :: ts) h (by simp)
      (t :: ts).length (t :: ts) [] [] (le_refl _)

/-- Witness for C2 (amended): a literally duplicated input [Gamma,
Gamma] is processed without any error. -/
theorem C2_setupQStar_argmin_never_rejects_witness :
    (SetupQStar starTrivial distDemo [vzero, vzero]).isSome :=
  C2_setupQStar_argmin_never_rejects starTrivial distDemo [vzero, vzero]
    (fun _ => rfl)

/-! ## ApplyQStar (QE_Symmetry.ApplyQStar, symmetries.py lines 211-329)

For each origin member `i` of the caller-supplied star, the source (1)
recomputes the theoretical star of `q_point_group[i]` through
`symph.star_q` (parameter `star`) and raises when its size `nq_new`
differs from the caller's `nq`; (2) obtains the transformed images of
the origin matrix for every member of the computed star through
`symph.q2qstar_out` (parameter `q2q`); (3) matches every
caller-supplied member against the computed star by
`get_min_dist_into_cell < __EPSILON__` and raises unless each has
exactly one match; (4) accumulates the matched image into `final_fc`.
After the loop `final_fc /= nq` and the caller's stack is overwritten.
The preliminary `self.SetupQPoint()` call only populates the tables
consumed by the two kernels, which are abstracted into the
parameters.  The blockwise copy
`final_fc[xq, 3*xat:3*xat+3, 3*yat:3*yat+3] += dyn_star[...,xat,yat]`
covers every entry of the (3*nat)×(3*nat) matrix and is therefore
modelled as whole-matrix addition. -/

/-- The match indices of one caller-supplied q-point against the
computed star `sxq`: every index whose member is closer than
`__EPSILON__` (source lines 292-297). -/
def starMatches (dist : Vec3 → Vec3 → ℚ) (sxq : List Vec3) (qx : Vec3) : List ℕ :=
  ((sxq.enum).filter (fun p => decide (dist p.2 qx < epsQ))).map Prod.fst

/-- The sorting pass of ApplyQStar over the caller-supplied members:
each must have exactly one match in the computed star (`count != 1`
raises, source lines 292-313); on success the list of matched star
indices is returned. -/
def sortingFor (dist : Vec3 → Vec3 → ℚ) (sxq : List Vec3) :
    List Vec3 → Except QErr (List ℕ)
  | [] => .ok []
  | qx :: rest =>
    let ms := starMatches dist sxq qx
    if ms.length = 1 then
      match sortingFor dist sxq rest with
      | .error e => .error e
      | .ok tail => .ok (ms.headD 0 :: tail)
    else .error .ambiguousStarMatch

/-- The outer loop of ApplyQStar over the (q point, matrix) pairs of
the caller's star; `acc` is the accumulating `final_fc`, kept as a
function from target-member index to matrix. -/
def applyQStarGo (m : ℕ) (star : Vec3 → List Vec3)
    (q2q : Vec3 → CMat m → List (CMat m)) (dist : Vec3 → Vec3 → ℚ)
    (nq : ℕ) (q_pts : List Vec3) :
    List (Vec3 × CMat m) → (ℕ → CMat m) → Except QErr (ℕ → CMat m)
  | [], acc => .ok acc
  | (qi, fci) :: rest, acc =>
    if (star qi).length ≠ nq then .error .starSizeMismatch
    else
      match sortingFor dist (star qi) q_pts with
      | .error e => .error e
      | .ok sorting =>
        applyQStarGo m star q2q dist nq q_pts rest
          (fun xq => acc xq + ((q2q qi fci).getD (sorting.getD xq 0) 0))

/-- QE_Symmetry.ApplyQStar: on success the returned list is the new
content of the caller's matrix stack `fcq` (overwritten in place by
the source); on error the stack is untouched (`final_fc` is a local
and the write-back `fcq[:,:,:] = final_fc` is the last statement). -/
def ApplyQStar (m : ℕ) (star : Vec3 → List Vec3)
    (q2q : Vec3 → CMat m → List (CMat m)) (dist : Vec3 → Vec3 → ℚ)
    (q_pts : List Vec3) (fcq : List (CMat m)) : Except QErr (List (CMat m)) :=
  let nq := q_pts.length
  match applyQStarGo m star q2q dist nq q_pts (q_pts.zip fcq) (fun _ => 0) with
  | .error e => .error e
  | .ok acc => .ok ((List.range nq).map (fun xq => ((nq : ℚ)⁻¹) • acc xq))

lemma applyQStarGo_error (m : ℕ) (star : Vec3 → List Vec3)
    (q2q : Vec3 → CMat m → List (CMat m)) (dist : Vec3 → Vec3 → ℚ)
    (nq : ℕ) (q_pts : List Vec3) (l : List (Vec3 × CMat m)) :
    ∀ (i : ℕ) (acc : ℕ → CMat m), i < l.length →
    (star (l.getD i (vzero, 0)).1).length ≠ nq →
    (∀ j < i, (star (l.getD j (vzero, 0)).1).length = nq ∧
      ∃ s, sortingFor dist (star (l.getD j (vzero, 0)).1) q_pts = .ok s) →
    applyQStarGo m star q2q dist nq q_pts l acc = .error .starSizeMismatch := by
  induction l with
  | nil =>
    intro i acc hi _ _
    exact absurd hi (by simp)
  | cons hd rest ih =>
    intro i acc hi hbad hgood
    obtain ⟨qi, fci⟩ := hd
    cases i with
    | zero =>
      simp only [List.getD_cons_zero] at hbad
      unfold applyQStarGo
      rw [if_pos hbad]
    | succ i =>
      obtain ⟨hlen0, s0, hs0⟩ := hgood 0 (Nat.succ_pos i)
      simp only [List.getD_cons_zero] at hlen0 hs0
      unfold applyQStarGo
      rw [if_neg (by omega)]
      rw [hs0]
      simp only [List.getD_cons_succ] at hbad
      refine ih i _ ?_ hbad ?_
      · simpa using Nat.lt_of_succ_lt_succ hi
      · intro j hj
        have := hgood (j + 1) (Nat.succ_lt_succ hj)
        simpa only [List.getD_cons_succ] using this

/-- C4: if any member of the caller-supplied star has a recomputed
theoretical star whose size differs from the caller's star size (and
the members before it pass their own checks, so that the run reaches
it), ApplyQStar fails with StarSizeMismatch; since the error return
carries no stack, the caller's matrix stack is never modified (the
source accumulates into the local `final_fc` and only writes `fcq`
back after the loop). -/
theorem C4_applyQStar_star_size_mismatch (m : ℕ) (star : Vec3 → List Vec3)
    (q2q : Vec3 → CMat m → List (CMat m)) (dist : Vec3 → Vec3 → ℚ)
    (q_pts : List Vec3) (fcq : List (CMat m)) (i : ℕ)
    (hi : i < (q_pts.zip fcq).length)
    (hbad : (star ((q_pts.zip fcq).getD i (vzero, 0)).1).length ≠ q_pts.length)
    (hgood : ∀ j < i,
      (star ((q_pts.zip fcq).getD j (vzero, 0)).1).length = q_pts.length ∧
      ∃ s, sortingFor dist (star ((q_pts.zip fcq).getD j (vzero, 0)).1) q_pts = .ok s) :
    ApplyQStar m star q2q dist q_pts fcq = .error .starSizeMismatch := by
  have h := applyQStarGo_error m star q2q dist q_pts.length q_pts (q_pts.zip fcq) i
    (fun _ => 0) hi hbad hgood
  simp only [ApplyQStar]
  rw [h]

/-- Witness for C4: one caller-supplied member whose recomputed star
has two members triggers StarSizeMismatch. -/
theorem C4_applyQStar_star_size_mismatch_witness :
    ApplyQStar 1 starCubicHalf (fun _ M => [M]) distDemo [vzero] [0]
      = .error .starSizeMismatch :=
  C4_applyQStar_star_size_mismatch 1 starCubicHalf (fun _ M => [M]) distDemo
    [vzero] [0] 0 (by decide) (by decide) (fun j hj => absurd hj (by omega))

lemma getD_zip {m : ℕ} (l1 : List Vec3) :
    ∀ (l2 : List (CMat m)) (j : ℕ), j < l1.length → j < l2.length →
    (l1.zip l2).getD j (vzero, 0) = (l1.getD j vzero, l2.getD j 0) := by
  induction l1 with
  | nil => intro l2 j h1 _; exact absurd h1 (by simp)
  | cons x xs ih =>
    intro l2 j h1 h2
    cases l2 with
    | nil => exact absurd h2 (by simp)
    | cons y ys =>
      cases j with
      | zero => simp [List.zip_cons_cons]
      | succ j =>
        simp only [List.zip_cons_cons, List.getD_cons_succ]
        refine ih ys j ?_ ?_
        · simp only [List.length_cons] at h1; omega
        · simp only [List.length_cons] at h2; omega

lemma applyQStarGo_ok (m : ℕ) (star : Vec3 → List Vec3)
    (q2q : Vec3 → CMat m → List (CMat m)) (dist : Vec3 → Vec3 → ℚ)
    (nq : ℕ) (q_pts : List Vec3) :
    ∀ (l : List (Vec3 × CMat m)) (srtl : ℕ → List ℕ) (acc : ℕ → CMat m),
    (∀ j < l.length, (star (l.getD j (vzero, 0)).1).length = nq ∧
      sortingFor dist (star (l.getD j (vzero, 0)).1) q_pts = .ok (srtl j)) →
    applyQStarGo m star q2q dist nq q_pts l acc
      = .ok (fun xq => acc xq + ∑ j ∈ Finset.range l.length,
          (q2q (l.getD j (vzero, 0)).1 (l.getD j (vzero, 0)).2).getD
            ((srtl j).getD xq 0) 0) := by
  intro l
  induction l with
  | nil =>
    intro srtl acc h
    simp only [applyQStarGo, List.length_nil, Finset.range_zero,
      Finset.sum_empty, add_zero]
  | cons hd rest ih =>
    intro srtl acc h
    obtain ⟨qi, fci⟩ := hd
    obtain ⟨hlen0, hs0⟩ := h 0 (by simp)
    simp only [List.getD_cons_zero] at hlen0 hs0
    have hstep : applyQStarGo m star q2q dist nq q_pts ((qi, fci) :: rest) acc
        = applyQStarGo m star q2q dist nq q_pts rest
            (fun xq => acc xq + ((q2q qi fci).getD ((srtl 0).getD xq 0) 0)) := by
      conv_lhs => rw [applyQStarGo]
      rw [if_neg (by omega), hs0]
    rw [hstep]
    rw [ih (fun j => srtl (j + 1))
      (fun xq => acc xq + ((q2q qi fci).getD ((srtl 0).getD xq 0) 0))
      (fun j hj => by
        have := h (j + 1) (by simp only [List.length_cons]; omega)
        simpa only [List.getD_cons_succ] using this)]
    refine congrArg Except.ok ?_
    funext xq
    simp only [List.length_cons]
    rw [Finset.sum_range_succ']
    simp only [List.getD_cons_zero, List.getD_cons_succ]
    abel

/-- C5: when every caller-supplied star member passes the checks of
ApplyQStar — the recomputed star of each origin member has the
caller's size, and the sorting pass matches each target member to
exactly one computed-star index (`srt i` lists those matches for
origin `i`; zero or more than one match within `__EPSILON__` would
instead return the ambiguous-match error by definition of
`sortingFor`) — then the new content of the caller's matrix stack
assigns to every target member `xq` the sum over every origin member
`i` of the transformed contribution of origin `i` matched to `xq`,
divided by the star size. -/
theorem C5_applyQStar_averages_over_star (m : ℕ) (star : Vec3 → List Vec3)
    (q2q : Vec3 → CMat m → List (CMat m)) (dist : Vec3 → Vec3 → ℚ)
    (q_pts : List Vec3) (fcq : List (CMat m)) (srt : ℕ → List ℕ)
    (hlen : fcq.length = q_pts.length)
    (hstar : ∀ i < q_pts.length,
      (star (q_pts.getD i vzero)).length = q_pts.length)
    (hsort : ∀ i < q_pts.length,
      sortingFor dist (star (q_pts.getD i vzero)) q_pts = .ok (srt i)) :
    ApplyQStar m star q2q dist q_pts fcq
      = .ok ((List.range q_pts.length).map (fun xq =>
          ((q_pts.length : ℚ))⁻¹ • ∑ i ∈ Finset.range q_pts.length,
            (q2q (q_pts.getD i vzero) (fcq.getD i 0)).getD
              ((srt i).getD xq 0) 0)) := by
  have hzlen : (q_pts.zip fcq).length = q_pts.length := by
    rw [List.length_zip]
    omega
  have hget : ∀ j < q_pts.length,
      (q_pts.zip fcq).getD j (vzero, 0) = (q_pts.getD j vzero, fcq.getD j 0) :=
    fun j hj => getD_zip q_pts fcq j hj (by omega)
  have hok := applyQStarGo_ok m star q2q dist q_pts.length q_pts
    (q_pts.zip fcq) srt (fun _ => 0) (fun j hj => by
      have hj' : j < q_pts.length := by omega
      rw [hget j hj']
      exact ⟨hstar j hj', hsort j hj'⟩)
  simp only [ApplyQStar]
  rw [hok]
  refine congrArg Except.ok ?_
  refine List.map_congr_left fun xq hxq => ?_
  refine congrArg (fun M => ((q_pts.length : ℚ))⁻¹ • M) ?_
  simp only [hzlen, zero_add]
  refine Finset.sum_congr rfl fun j hj => ?_
  rw [hget j (Finset.mem_range.mp hj)]

/-- Witness for C5 at a concrete run: a one-member star at Gamma with
the identity transform kernel. -/
theorem C5_applyQStar_averages_over_star_witness :
    ApplyQStar 3 starTrivial (fun _ M => [M]) distDemo [vzero] [1]
      = .ok ((List.range ([vzero] : List Vec3).length).map (fun xq =>
          ((([vzero] : List Vec3).length : ℚ))⁻¹ •
            ∑ i ∈ Finset.range ([vzero] : List Vec3).length,
              ((fun (_ : Vec3) (M : CMat 3) => [M]) (([vzero] : List Vec3).getD i vzero)
                  (([1] : List (CMat 3)).getD i 0)).getD
                ((((fun _ => [0]) : ℕ → List ℕ) i).getD xq 0) 0)) :=
  C5_applyQStar_averages_over_star 3 starTrivial (fun _ M => [M]) distDemo
    [vzero] [1] (fun _ => [0]) rfl
    (fun i hi => by
      have : i = 0 := by simpa using hi
      subst this
      rfl)
    (fun i hi => by
      have : i = 0 := by simpa using hi
      subst this
      rfl)

/-! ## Table state, ForceSymmetry and SymmetrizeDynQ

(symmetries.py: constructor lines 24-98, ForceSymmetry lines 101-132,
SymmetrizeDynQ lines 735-778.) -/

/-- The symmetry tables of a QE_Symmetry instance that the
symmetrization routines consume.  The constructor zero-initialises
every one of them (symmetries.py lines 60-71); SetupQPoint populates
them. -/
structure QESymState where
  nsymq : ℕ
  nsym : ℕ
  s : ℕ → Matrix (Fin 3) (Fin 3) ℤ
  ft : ℕ → Vec3
  irt : ℕ → ℕ → ℕ
  invs : ℕ → ℕ
  minus_q : Bool
  irotmq : ℕ

/-- The table state of a freshly constructed QE_Symmetry instance on
which SetupQPoint (discovery) has never been called: all tables are
zero, `QE_nsymq = 0` (symmetries.py lines 60-71). -/
def initState : QESymState :=
  { nsymq := 0, nsym := 0, s := fun _ => 0, ft := fun _ => 0,
    irt := fun _ _ => 0, invs := fun _ => 0, minus_q := false, irotmq := 0 }

/-- QE_Symmetry.ForceSymmetry (symmetries.py lines 101-132): the only
routine of the class that guards against an undiscovered table
(`if self.QE_nsymq == 0: raise ValueError(...)`).  On a discovered
table it converts the structure's coordinates to the crystal basis
(`symph.cryst_to_cart`, parameter `toCryst`), scatters
`S_s . x_i + ft_s` onto the mapped atom `irt[s,i]-1` for every
operation and atom, divides by the operation count, converts back
(parameter `toCart`) and overwrites the structure's coordinates
(modelled by returning them). -/
def ForceSymmetry (toCryst toCart : Vec3 → Vec3) (st : QESymState)
    (natoms : ℕ) (coords : ℕ → Vec3) : Except QErr (ℕ → Vec3) :=
  if st.nsymq = 0 then .error .notInitialized
  else
    let cr : ℕ → Vec3 := fun i => toCryst (coords i)
    let newc : ℕ → Vec3 := fun j =>
      ((st.nsymq : ℚ)⁻¹) • ∑ si ∈ Finset.range st.nsymq, ∑ i ∈ Finset.range natoms,
        if st.irt si i - 1 = j
          then (fun a => (∑ b, (st.s si a b : ℚ) * cr i b) + st.ft si a)
          else 0
    .ok (fun j => toCart (newc j))

/-- A complex 3×3 block of a dynamical matrix. -/
abbrev CM3 := Matrix (Fin 3) (Fin 3) CC

/-- A dynamical matrix in the atom-pair block layout `QE_dyn[:,:,na,nb]`
used to exchange data with the Fortran kernels; the flat
(3*nat)×(3*nat) layout of the caller is equivalent, entry
`(3*na+a, 3*nb+b)` corresponding to block entry `(na, nb, a, b)`. -/
abbrev BlockM (nat : ℕ) := Fin nat → Fin nat → CM3

/-- QE_Symmetry.SymmetrizeDynQ (symmetries.py lines 735-778): converts
every 3×3 atom-pair block of the caller's dynamical matrix to crystal
coordinates (`Methods.convert_matrix_cart_cryst`, parameter
`cart2cryst`), hands the blocked matrix together with the whole table
state to `symph.symdynph_gq_new` (parameter `symdynph`), converts the
result back (parameter `cryst2cart`) and overwrites the caller's
matrix (modelled by returning it).  Note that, unlike ForceSymmetry,
this routine performs NO initialization check whatsoever: it runs the
same way on a freshly constructed table with `QE_nsymq = 0`. -/
def SymmetrizeDynQ (nat : ℕ) (cart2cryst cryst2cart : CM3 → CM3)
    (symdynph : QESymState → Vec3 → BlockM nat → BlockM nat)
    (st : QESymState) (dyn : BlockM nat) (q : Vec3) : Except QErr (BlockM nat) :=
  let qe_dyn : BlockM nat := fun na nb => cart2cryst (dyn na nb)
  let out := symdynph st q qe_dyn
  .ok (fun na nb => cryst2cart (out na nb))

/-- C3 counterexample: on a freshly constructed table (QE_nsymq = 0,
discovery never run), SymmetrizeDynQ does NOT fail with
NotInitialized — it happily hands the zeroed tables to the Fortran
kernel and returns a result, refuting the claim that every
symmetrization operation on an uninitialized table fails. -/
theorem C3_symmetrizeDynQ_no_check_counterexample :
    initState.nsymq = 0 ∧
    SymmetrizeDynQ 1 id id (fun _ _ b => b) initState (fun _ _ => 0) vzero
      = .ok (fun _ _ => 0) :=
  ⟨rfl, rfl⟩

/-- C3 (amended): only ForceSymmetry guards against an undiscovered
table and fails with NotInitialized when `QE_nsymq = 0`;
SymmetrizeDynQ performs no initialization check and returns a normal
result on every state, the uninitialized one included. -/
theorem C3_only_forceSymmetry_checks_initialization
    (nat natoms : ℕ) (toCryst toCart : Vec3 → Vec3)
    (cart2cryst cryst2cart : CM3 → CM3)
    (symdynph : QESymState → Vec3 → BlockM nat → BlockM nat)
    (st : QESymState) (coords : ℕ → Vec3) (dyn : BlockM nat) (q : Vec3)
    (h0 : st.nsymq = 0) :
    ForceSymmetry toCryst toCart st natoms coords = .error .notInitialized ∧
    ∃ out, SymmetrizeDynQ nat cart2cryst cryst2cart symdynph st dyn q = .ok out := by
  constructor
  · unfold ForceSymmetry
    rw [if_pos h0]
  · exact ⟨_, rfl⟩

/-- Witness for C3 (amended) at the concrete freshly constructed
state. -/
theorem C3_only_forceSymmetry_checks_initialization_witness :
    ForceSymmetry id id initState 1 (fun _ => vzero) = .error .notInitialized ∧
    ∃ out, SymmetrizeDynQ 1 id id (fun _ _ b => b) initState (fun _ _ => 1) vzero
      = .ok out :=
  C3_only_forceSymmetry_checks_initialization 1 1 id id id id (fun _ _ b => b)
    initState (fun _ => vzero) (fun _ _ => 1) vzero rfl

/-! ## ApplySymmetryToMatrix (symmetries.py lines 331-371)

The 3×3 tensor is symmetrized by `symph.symmatrix` (parameter `symm`,
closing over the discovered table; the preliminary `SetupQPoint()`
call populates that table).  When an error tensor is supplied, for
each element (i,j) the indicator tensor with a single 1 at (i,j) is
symmetrized the same way, the entries of the result larger than
`__EPSILON__` in magnitude form the mask of input elements mixed into
that output element, and the output standard error is
`sqrt(sum of squared masked input errors) / mask count` (0 when the
mask is empty).  `np.sqrt` is modelled by an arbitrary function
parameter `sqrtQ`, since no property of the square root is involved
in the claim. -/

/-- The indicator tensor `work` with a single 1 at (i, j). -/
def unitM3 (i j : Fin 3) : M3 := Matrix.of fun a b => if a = i ∧ b = j then 1 else 0

/-- QE_Symmetry.ApplySymmetryToMatrix: returns the pair (new tensor,
new error tensor); the source overwrites both arguments in place with
these values. -/
def ApplySymmetryToMatrix (symm : M3 → M3) (sqrtQ : ℚ → ℚ)
    (matrix : M3) (err : Option M3) : M3 × Option M3 :=
  let mat_f := symm matrix
  match err with
  | none => (mat_f, none)
  | some e =>
    let err_new : M3 := Matrix.of fun i j =>
      let work := symm (unitM3 i j)
      let mask : Fin 3 → Fin 3 → Bool := fun a b => decide (epsQ < |work a b|)
      let naverage : ℕ := ∑ a, ∑ b, (if mask a b then 1 else 0)
      if naverage = 0 then 0
      else sqrtQ (∑ a, ∑ b, (if mask a b then (e a b) ^ 2 else 0)) / (naverage : ℚ)
    (mat_f, some err_new)

/-- C7: called with an error tensor, ApplySymmetryToMatrix returns the
symmetrized tensor in the first component (the source overwrites the
input tensor with it) and, for every element (i,j), an output error
equal to `sqrtQ` of the sum of the squared input errors of the
contributing elements divided by the number of contributing elements —
the contributing elements being exactly the positions where the
symmetrized indicator tensor of (i,j) exceeds the tolerance in
magnitude — with error exactly 0 when no element contributes. -/
theorem C7_applySymmetryToMatrix_error_propagation
    (symm : M3 → M3) (sqrtQ : ℚ → ℚ) (matrix e : M3) :
    (ApplySymmetryToMatrix symm sqrtQ matrix (some e)).1 = symm matrix ∧
    (ApplySymmetryToMatrix symm sqrtQ matrix (some e)).2
      = some (Matrix.of fun i j =>
          if (Finset.univ.filter
              (fun p : Fin 3 × Fin 3 => epsQ < |symm (unitM3 i j) p.1 p.2|)).card = 0
          then 0
          else sqrtQ (∑ p ∈ Finset.univ.filter
              (fun p : Fin 3 × Fin 3 => epsQ < |symm (unitM3 i j) p.1 p.2|),
              (e p.1 p.2) ^ 2)
            / ((Finset.univ.filter
              (fun p : Fin 3 × Fin 3 => epsQ < |symm (unitM3 i j) p.1 p.2|)).card : ℚ)) := by
  refine ⟨rfl, ?_⟩
  simp only [ApplySymmetryToMatrix]
  refine congrArg some ?_
  refine congrArg Matrix.of ?_
  funext i j
  have hcard : (∑ a : Fin 3, ∑ b : Fin 3,
        (if decide (epsQ < |symm (unitM3 i j) a b|) = true then (1 : ℕ) else 0))
      = (Finset.univ.filter
          (fun p : Fin 3 × Fin 3 => epsQ < |symm (unitM3 i j) p.1 p.2|)).card := by
    rw [Finset.card_filter, Fintype.sum_prod_type]
    simp
  have hsum : (∑ a : Fin 3, ∑ b : Fin 3,
        (if decide (epsQ < |symm (unitM3 i j) a b|) = true then (e a b) ^ 2 else 0))
      = ∑ p ∈ Finset.univ.filter
          (fun p : Fin 3 × Fin 3 => epsQ < |symm (unitM3 i j) p.1 p.2|),
          (e p.1 p.2) ^ 2 := by
    rw [Finset.sum_filter, Fintype.sum_prod_type]
    simp
  rw [hcard, hsum]

/-! ## ImposeSumRule (QE_Symmetry.ImposeSumRule, symmetries.py lines 457-515)

For every mode other than "custom" the force constants are packed into
the (3,3,nat,nat) block layout, the effective charges (when supplied)
are packed by `np.einsum("ijk -> kji", zeu)` — i.e. atom block `na`
enters as the transpose of `zeu[na]` — and both are handed to
`symph.set_asr` (parameter `set_asr`, which also receives the mode
string, the axis and the atomic positions `tau`); afterwards the
force constants are unpacked back and, when the caller supplied
effective charges, `zeu[na,:,:] = f_zeu[:,:,na]` reads the primitive's
output back WITHOUT the transpose.  For mode "custom" the raw
force-constant matrix goes through the module-level CustomASR and the
effective charges are not touched at all. -/

/-- QE_Symmetry.ImposeSumRule.  `nat` is `self.QE_nat`; the caller's
force constants are a flat (3*nat)×(3*nat) matrix; `zeu`, when
present, maps the atom index to its 3×3 effective-charge block. -/
def ImposeSumRule (nat : ℕ)
    (set_asr : String → ℕ → (ℕ → Vec3) → (ℕ → ℕ → M3) → (ℕ → M3) →
      ((ℕ → ℕ → M3) × (ℕ → M3)))
    (asr : String) (axis : ℕ) (tau : ℕ → Vec3)
    (force_constant : ℕ → ℕ → ℚ) (zeu : Option (ℕ → M3)) :
    Option ((ℕ → ℕ → ℚ) × Option (ℕ → M3)) :=
  let f_zeu : ℕ → M3 := match zeu with
    | some z => fun na => (z na).transpose
    | none => fun _ => 0
  if asr ≠ "custom" then
    let qe_fc : ℕ → ℕ → M3 := fun na nb =>
      Matrix.of fun a b => force_constant (3 * na + (a : ℕ)) (3 * nb + (b : ℕ))
    let res := set_asr asr axis tau qe_fc f_zeu
    let fc' : ℕ → ℕ → ℚ := fun x y =>
      if x < 3 * nat ∧ y < 3 * nat then
        res.1 (x / 3) (y / 3) ⟨x % 3, Nat.mod_lt x (by norm_num)⟩
          ⟨y % 3, Nat.mod_lt y (by norm_num)⟩
      else force_constant x y
    let zeu' : Option (ℕ → M3) := match zeu with
      | some z => some (fun na => if na < nat then res.2 na else z na)
      | none => none
    some (fc', zeu')
  else
    match CustomASR (3 * nat) (3 * nat) force_constant with
    | none => none
    | some fc' => some (fc', zeu)

/-- C8: with mode custom and an effective-charge array supplied,
ImposeSumRule returns the effective charges exactly unchanged and only
the force-constant matrix is modified (it becomes the CustomASR
projection); with any delegated non-custom mode the returned effective
charges are read back from the `symph.set_asr` primitive, which may
update them. -/
theorem C8_custom_mode_preserves_effective_charges (nat : ℕ)
    (set_asr : String → ℕ → (ℕ → Vec3) → (ℕ → ℕ → M3) → (ℕ → M3) →
      ((ℕ → ℕ → M3) × (ℕ → M3)))
    (axis : ℕ) (tau : ℕ → Vec3) (force_constant : ℕ → ℕ → ℚ)
    (z : ℕ → M3) (hn : 0 < nat) :
    (∃ fc', CustomASR (3 * nat) (3 * nat) force_constant = some fc' ∧
      ImposeSumRule nat set_asr "custom" axis tau force_constant (some z)
        = some (fc', some z)) ∧
    (∀ asr, asr ≠ "custom" →
      ImposeSumRule nat set_asr asr axis tau force_constant (some z)
        = some (fun x y =>
            if x < 3 * nat ∧ y < 3 * nat then
              (set_asr asr axis tau
                (fun na nb => Matrix.of fun a b =>
                  force_constant (3 * na + (a : ℕ)) (3 * nb + (b : ℕ)))
                (fun na => (z na).transpose)).1 (x / 3) (y / 3)
                ⟨x % 3, Nat.mod_lt x (by norm_num)⟩
                ⟨y % 3, Nat.mod_lt y (by norm_num)⟩
            else force_constant x y,
          some (fun na => if na < nat then
              (set_asr asr axis tau
                (fun na nb => Matrix.of fun a b =>
                  force_constant (3 * na + (a : ℕ)) (3 * nb + (b : ℕ)))
                (fun na => (z na).transpose)).2 na
            else z na))) := by
  constructor
  · refine ⟨mmulQ (3 * nat) (transP nat)
      (mmulQ (3 * nat) force_constant (transP nat)), customASR_eq_some nat hn _, ?_⟩
    unfold ImposeSumRule
    rw [if_neg (by simp)]
    rw [customASR_eq_some nat hn force_constant]
  · intro asr hasr
    unfold ImposeSumRule
    rw [if_pos hasr]

/-- Witness for C8 at a concrete input: one atom, zero force
constants, zero charges, and a sum-rule primitive that sets every
effective charge to the all-ones block — showing that the delegated
path does expose the primitive's update while the custom path keeps
the caller's zeros. -/
theorem C8_custom_mode_preserves_effective_charges_witness :
    (∃ fc', CustomASR (3 * 1) (3 * 1) (fun _ _ => (0 : ℚ)) = some fc' ∧
      ImposeSumRule 1 (fun _ _ _ qf _ => (qf, fun _ => Matrix.of fun _ _ => 1))
        "custom" 1 (fun _ => vzero) (fun _ _ => (0 : ℚ)) (some (fun _ => 0))
        = some (fc', some (fun _ => 0))) ∧
    (∀ asr, asr ≠ "custom" →
      ImposeSumRule 1 (fun _ _ _ qf _ => (qf, fun _ => Matrix.of fun _ _ => 1))
        asr 1 (fun _ => vzero) (fun _ _ => (0 : ℚ)) (some (fun _ => 0))
        = some (fun x y =>
            if x < 3 * 1 ∧ y < 3 * 1 then
              ((fun (_ : String) (_ : ℕ) (_ : ℕ → Vec3)
                  (qf : ℕ → ℕ → M3) (_ : ℕ → M3) =>
                  (qf, fun (_ : ℕ) => Matrix.of fun (_ _ : Fin 3) => (1 : ℚ)))
                asr 1 (fun _ => vzero)
                (fun na nb => Matrix.of fun a b =>
                  (fun _ _ => (0 : ℚ)) (3 * na + (a : ℕ)) (3 * nb + (b : ℕ)))
                (fun na => ((fun (_ : ℕ) => (0 : M3)) na).transpose)).1 (x / 3) (y / 3)
                ⟨x % 3, Nat.mod_lt x (by norm_num)⟩
                ⟨y % 3, Nat.mod_lt y (by norm_num)⟩
            else (fun _ _ => (0 : ℚ)) x y,
          some (fun na => if na < 1 then
              ((fun (_ : String) (_ : ℕ) (_ : ℕ → Vec3)
                  (qf : ℕ → ℕ → M3) (_ : ℕ → M3) =>
                  (qf, fun (_ : ℕ) => Matrix.of fun (_ _ : Fin 3) => (1 : ℚ)))
                asr 1 (fun _ => vzero)
                (fun na nb => Matrix.of fun a b =>
                  (fun _ _ => (0 : ℚ)) (3 * na + (a : ℕ)) (3 * nb + (b : ℕ)))
                (fun na => ((fun (_ : ℕ) => (0 : M3)) na).transpose)).2 na
            else (fun (_ : ℕ) => (0 : M3)) na))) :=
  C8_custom_mode_preserves_effective_charges 1
    (fun _ _ _ qf _ => (qf, fun _ => Matrix.of fun _ _ => 1)) 1
    (fun _ => vzero) (fun _ _ => (0 : ℚ)) (fun _ => 0) (by decide)

/-! ## InitFromSymmetries: the inverse-index computation
(QE_Symmetry.InitFromSymmetries, symmetries.py lines 623-676; the
inverse search is lines 649-655)

For each supplied operation the source computes
`inv_sym = np.linalg.inv(sym[:, :3])` and scans the supplied list with
`for k, other_sym in enumerate(symmetries): if np.sum((inv_sym -
other_sym[:, :3])**2) < __EPSILON__: break`, then stores
`QE_invs[i] = k + 1`.  There is no for-else and no raise: when no
operation matches, the loop simply finishes and the Python loop
variable `k` keeps its final value `len(symmetries) - 1`, so the
inverse index silently becomes the operation count. -/

/-- A symmetry operation in the CellConstructor 3×4 format: rotation
columns plus the fractional-translation column. -/
structure SymOp where
  rot : M3
  tr : Vec3

/-- An all-zero operation, used only as the out-of-range default of
list indexing in statements. -/
def symOpZero : SymOp := ⟨0, 0⟩

/-- The determinant of a 3×3 matrix, written out. -/
def det3 (A : M3) : ℚ :=
  A 0 0 * (A 1 1 * A 2 2 - A 1 2 * A 2 1)
    - A 0 1 * (A 1 0 * A 2 2 - A 1 2 * A 2 0)
    + A 0 2 * (A 1 0 * A 2 1 - A 1 1 * A 2 0)

/-- Model of `np.linalg.inv` on a 3×3 matrix: adjugate over determinant.
(numpy raises LinAlgError on a singular matrix; over `ℚ` the
convention `0⁻¹ = 0` takes its place, but every rotation handled by
InitFromSymmetries is invertible, so the two never differ on the runs
considered here.) -/
def inv3 (A : M3) : M3 :=
  (det3 A)⁻¹ • Matrix.of
    ![![A 1 1 * A 2 2 - A 1 2 * A 2 1, A 0 2 * A 2 1 - A 0 1 * A 2 2,
        A 0 1 * A 1 2 - A 0 2 * A 1 1],
      ![A 1 2 * A 2 0 - A 1 0 * A 2 2, A 0 0 * A 2 2 - A 0 2 * A 2 0,
        A 0 2 * A 1 0 - A 0 0 * A 1 2],
      ![A 1 0 * A 2 1 - A 1 1 * A 2 0, A 0 1 * A 2 0 - A 0 0 * A 2 1,
        A 0 0 * A 1 1 - A 0 1 * A 1 0]]

/-- The squared Frobenius distance `np.sum((A - B)**2)` used as the
match criterion of the inverse search. -/
def frob2 (A B : M3) : ℚ := ∑ a, ∑ b, (A a b - B a b) ^ 2

/-- Model of the Python idiom `for k, x in enumerate(l): if p x: break`
followed by reading `k`: the first matching index when one exists,
and the final loop value `i0 + len(l) - 1` when none matches (a Python
loop variable keeps its last value after a completed loop).  On an
empty list Python would raise NameError reading `k`; the (unused)
value `i - 1` stands in. -/
def pyForBreak (p : SymOp → Prop) [DecidablePred p] : ℕ → List SymOp → ℕ
  | i, [] => i - 1
  | i, a :: rest => if p a then i else pyForBreak p (i + 1) rest

/-- The `QE_invs` list computed by InitFromSymmetries (lines 649-655):
entry `i` is one plus the loop value after scanning for the matrix
inverse of rotation `i` among all supplied rotations. -/
def QE_invs_of (syms : List SymOp) : List ℕ :=
  syms.map fun sy =>
    pyForBreak (fun other => frob2 (inv3 sy.rot) other.rot < epsQ) 0 syms + 1

lemma pyForBreak_no_match (p : SymOp → Prop) [DecidablePred p]
    (l : List SymOp) : ∀ i, (∀ a ∈ l, ¬ p a) →
    pyForBreak p i l = i + l.length - 1 := by
  induction l with
  | nil =>
    intro i _
    simp [pyForBreak]
  | cons a rest ih =>
    intro i h
    unfold pyForBreak
    rw [if_neg (h a (by simp))]
    rw [ih (i + 1) (fun b hb => h b (by simp [hb]))]
    simp only [List.length_cons]
    omega

lemma pyForBreak_first_match (p : SymOp → Prop) [DecidablePred p]
    (l : List SymOp) : ∀ i k, k < l.length →
    (∀ j < k, ¬ p (l.getD j symOpZero)) → p (l.getD k symOpZero) →
    pyForBreak p i l = i + k := by
  induction l with
  | nil =>
    intro i k hk _ _
    exact absurd hk (by simp)
  | cons a rest ih =>
    intro i k hk hbefore hk_match
    cases k with
    | zero =>
      simp only [List.getD_cons_zero] at hk_match
      unfold pyForBreak
      rw [if_pos hk_match]
      omega
    | succ k =>
      have ha : ¬ p a := by
        have := hbefore 0 (Nat.succ_pos k)
        simpa only [List.getD_cons_zero] using this
      unfold pyForBreak
      rw [if_neg ha]
      rw [ih (i + 1) k (by simp only [List.length_cons] at hk; omega)
        (fun j hj => by
          have := hbefore (j + 1) (Nat.succ_lt_succ hj)
          simpa only [List.getD_cons_succ] using this)
        (by simpa only [List.getD_cons_succ] using hk_match)]
      omega

lemma mapInvsGetD (syms : List SymOp) :
    ∀ i, i < syms.length →
    (QE_invs_of syms).getD i 0
      = pyForBreak (fun other =>
          frob2 (inv3 ((syms.getD i symOpZero).rot)) other.rot < epsQ) 0 syms + 1 := by
  have general : ∀ (l : List SymOp) (f : SymOp → ℕ) (i : ℕ), i < l.length →
      (l.map f).getD i 0 = f (l.getD i symOpZero) := by
    intro l f
    induction l with
    | nil => intro i hi; exact absurd hi (by simp)
    | cons a rest ih =>
      intro i hi
      cases i with
      | zero => simp
      | succ i =>
        simp only [List.map_cons, List.getD_cons_succ]
        exact ih i (by simp only [List.length_cons] at hi; omega)
  intro i hi
  exact general syms _ i hi

/-- C9 (amended): InitFromSymmetries assigns to operation `i` one plus
the index of the FIRST supplied operation whose rotation is within the
squared-Frobenius tolerance of the matrix inverse of rotation `i`
(possibly operation `i` itself, and without any uniqueness check);
and when NO supplied operation matches, no MissingInverse error is
raised — the Python loop variable keeps its final value and the
inverse index silently becomes the operation count. -/
theorem C9_inverse_index_first_match_or_silent_fallback
    (syms : List SymOp) (i : ℕ) (hi : i < syms.length) :
    ((∀ op ∈ syms, ¬ frob2 (inv3 ((syms.getD i symOpZero).rot)) op.rot < epsQ) →
      (QE_invs_of syms).getD i 0 = syms.length) ∧
    (∀ k < syms.length,
      (∀ j < k, ¬ frob2 (inv3 ((syms.getD i symOpZero).rot))
        ((syms.getD j symOpZero).rot) < epsQ) →
      frob2 (inv3 ((syms.getD i symOpZero).rot)) ((syms.getD k symOpZero).rot) < epsQ →
      (QE_invs_of syms).getD i 0 = k + 1) := by
  constructor
  · intro hnone
    rw [mapInvsGetD syms i hi]
    rw [pyForBreak_no_match _ syms 0 hnone]
    have : 1 ≤ syms.length := by omega
    omega
  · intro k hk hbefore hmatch
    rw [mapInvsGetD syms i hi]
    rw [pyForBreak_first_match _ syms 0 k hk hbefore hmatch]
    omega

/-- The identity operation in the 3×4 format. -/
def opId : SymOp := ⟨!![1, 0, 0; 0, 1, 0; 0, 0, 1], 0⟩

/-- The 90-degree rotation about z in the 3×4 format; its inverse (the
270-degree rotation) is deliberately NOT part of the demo list. -/
def opR90 : SymOp := ⟨!![0, -1, 0; 1, 0, 0; 0, 0, 1], 0⟩

lemma frob2_invId_id : frob2 (inv3 opId.rot) opId.rot = 0 := by
  simp only [frob2, inv3, det3, opId, Fin.sum_univ_three, Matrix.smul_apply,
    Matrix.of_apply, Matrix.cons_val', Matrix.cons_val_zero, Matrix.cons_val_one,
    Matrix.cons_val_two, Matrix.head_cons, Matrix.tail_cons, Matrix.head_fin_const,
    Matrix.empty_val', Matrix.cons_val_fin_one, smul_eq_mul]
  norm_num

lemma frob2_invR90_id : frob2 (inv3 opR90.rot) opId.rot = 4 := by
  simp only [frob2, inv3, det3, opId, opR90, Fin.sum_univ_three, Matrix.smul_apply,
    Matrix.of_apply, Matrix.cons_val', Matrix.cons_val_zero, Matrix.cons_val_one,
    Matrix.cons_val_two, Matrix.head_cons, Matrix.tail_cons, Matrix.head_fin_const,
    Matrix.empty_val', Matrix.cons_val_fin_one, smul_eq_mul]
  norm_num

lemma frob2_invR90_R90 : frob2 (inv3 opR90.rot) opR90.rot = 8 := by
  simp only [frob2, inv3, det3, opR90, Fin.sum_univ_three, Matrix.smul_apply,
    Matrix.of_apply, Matrix.cons_val', Matrix.cons_val_zero, Matrix.cons_val_one,
    Matrix.cons_val_two, Matrix.head_cons, Matrix.tail_cons, Matrix.head_fin_const,
    Matrix.empty_val', Matrix.cons_val_fin_one, smul_eq_mul]
  norm_num

/-- No operation of the demo list is the inverse of the 90-degree
rotation. -/
lemma no_inverse_of_R90 :
    ∀ op ∈ [opId, opR90], ¬ frob2 (inv3 opR90.rot) op.rot < epsQ := by
  intro op hop
  simp only [List.mem_cons, List.not_mem_nil, or_false] at hop
  rcases hop with rfl | rfl
  · rw [frob2_invR90_id, epsQ_eq]
    norm_num
  · rw [frob2_invR90_R90, epsQ_eq]
    norm_num

/-- C9 counterexample: the supplied list [identity, R90] contains no
inverse for R90 (within tolerance), yet InitFromSymmetries raises no
MissingInverse error — it silently assigns inverse index 2 to R90,
pointing at R90 itself, whose rotation is not its own inverse. -/
theorem C9_missing_inverse_counterexample :
    (∀ op ∈ [opId, opR90], ¬ frob2 (inv3 opR90.rot) op.rot < epsQ) ∧
    QE_invs_of [opId, opR90] = [1, 2] := by
  refine ⟨no_inverse_of_R90, ?_⟩
  have e0 : pyForBreak
      (fun other => frob2 (inv3 opId.rot) other.rot < epsQ) 0 [opId, opR90] = 0 := by
    have := pyForBreak_first_match
      (fun other => frob2 (inv3 opId.rot) other.rot < epsQ) [opId, opR90] 0 0
      (by simp) (fun j hj => absurd hj (by omega))
      (by
        simp only [List.getD_cons_zero]
        rw [frob2_invId_id, epsQ_eq]
        norm_num)
    simpa using this
  have e1 : pyForBreak
      (fun other => frob2 (inv3 opR90.rot) other.rot < epsQ) 0 [opId, opR90] = 1 := by
    have := pyForBreak_no_match
      (fun other => frob2 (inv3 opR90.rot) other.rot < epsQ) [opId, opR90] 0
      no_inverse_of_R90
    simpa using this
  unfold QE_invs_of
  simp only [List.map_cons, List.map_nil]
  rw [e0, e1]

/-- Witness for C9 (amended): on the demo list missing R90's inverse,
the assigned index for operation 1 is the operation count 2, with no
error. -/
theorem C9_inverse_index_first_match_or_silent_fallback_witness :
    (QE_invs_of [opId, opR90]).getD 1 0 = ([opId, opR90] : List SymOp).length :=
  (C9_inverse_index_first_match_or_silent_fallback [opId, opR90] 1 (by simp)).1
    no_inverse_of_R90
